import Mathlib

/-!
Verification development for the `tt_gutenberg` alias-extraction-and-ranking
pipeline (`tt_gutenberg/authors.py`).

Strings are modelled as `List Char`; Python's `str.strip`, `str.lower`,
regular-expression splitting and the pandas joins used by the code are
embedded as executable functions below.  The model is ASCII-faithful:
`Char.toLower`, `Char.isAlpha`, `Char.isAlphanum` agree with Python's
behaviour on ASCII data, which is the domain of the dataset.

Missing / `NaN` cell values are modelled with `Option`.
-/

namespace Gutenberg

/-- Python `str.strip` whitespace set (ASCII part). -/
def isPySpace (c : Char) : Bool :=
  c = ' ' || c = '\t' || c = '\n' || c = '\r' || c = '\x0b' || c = '\x0c'

/-- Leading junk characters removed by `re.sub(r"^[\[\(\"]+", ...)`. -/
def isOpenJ (c : Char) : Bool := c = '[' || c = '(' || c = '\"'

/-- Trailing junk characters removed by `re.sub(r"[\]\)\"]+$", ...)`. -/
def isCloseJ (c : Char) : Bool := c = ']' || c = ')' || c = '\"'

/-- Separator characters of `re.split(r"[,;|/\\]", s)`. -/
def isSepC (c : Char) : Bool :=
  c = ',' || c = ';' || c = '|' || c = '/' || c = '\\'

/-- Regex word character `\w` (ASCII part), used by the `\b` boundary. -/
def isWordChar (c : Char) : Bool := c.isAlphanum || c = '_'

/-- Remove a trailing run of characters satisfying `p`. -/
def rstripBy (p : Char → Bool) (l : List Char) : List Char :=
  (l.reverse.dropWhile p).reverse

/-- Python `str.strip()`. -/
def stripL (l : List Char) : List Char :=
  rstripBy isPySpace (l.dropWhile isPySpace)

/-- `re.sub(r"^[\[\(\"]+|[\]\)\"]+$", "", s)`: drop the leading run of
opening junk and the trailing run of closing junk. -/
def subOuter (l : List Char) : List Char :=
  rstripBy isCloseJ (l.dropWhile isOpenJ)

/-- Python `str.lower()` (ASCII model). -/
def lowerL (l : List Char) : List Char := l.map Char.toLower

/-- `leadsWith pat l` holds when `pat` is an initial segment of `l`. -/
def leadsWith : List Char → List Char → Bool
  | [], _ => true
  | _ :: _, [] => false
  | p :: ps, c :: cs => p = c && leadsWith ps cs

/-- Python substring test `pat in l`. -/
def containsSub (pat : List Char) : List Char → Bool
  | [] => leadsWith pat []
  | c :: rest => leadsWith pat (c :: rest) || containsSub pat rest

/-- The trailing `\b` test after a matched `and`: the next character, if
any, must not be a word character. -/
def boundaryAfter : List Char → Bool
  | [] => true
  | c :: _ => !isWordChar c

/-- Case-insensitive match of the three characters of `and`. -/
def isAndChars (c1 c2 c3 : Char) : Bool :=
  (c1.toLower = 'a' : Bool) && (c2.toLower = 'n' : Bool) && (c3.toLower = 'd' : Bool)

/-- Left-to-right scan of `re.split(r"\band\b", p, flags=re.IGNORECASE)`.
`prevW` records whether the previous character was a word character (the
leading `\b` test); `acc` is the reversed current piece. -/
def splitAndAux (prevW : Bool) (acc : List Char) : List Char → List (List Char)
  | [] => [acc.reverse]
  | c1 :: c2 :: c3 :: rest =>
    if prevW = false && isAndChars c1 c2 c3 && boundaryAfter rest then
      acc.reverse :: splitAndAux true [] rest
    else
      splitAndAux (isWordChar c1) (c1 :: acc) (c2 :: c3 :: rest)
  | c :: rest => splitAndAux (isWordChar c) (c :: acc) rest

/-- `re.split(r"\band\b", p, flags=re.IGNORECASE)`. -/
def splitWordAnd (l : List Char) : List (List Char) := splitAndAux false [] l

/-- Helper for `re.split(r"[,;|/\\]", s)`: pieces between separator
characters, empty pieces kept. -/
def splitSepsAux (acc : List Char) : List Char → List (List Char)
  | [] => [acc.reverse]
  | c :: rest =>
    if isSepC c then acc.reverse :: splitSepsAux [] rest
    else splitSepsAux (c :: acc) rest

/-- `re.split(r"[,;|/\\]", s)`. -/
def splitSeps (l : List Char) : List (List Char) := splitSepsAux [] l

/-- The literal `' and '` pattern of the guard `' and ' in p.lower()`. -/
def sAndPat : List Char := [' ', 'a', 'n', 'd', ' ']

/-- Body of the `for p in parts` loop of `_split_aliases`: a piece whose
lowering contains `' and '` is split at word-boundary `and`s and each
sub-piece stripped; any other piece is kept whole. -/
def expandAnd (p : List Char) : List (List Char) :=
  if containsSub sAndPat (lowerL p) then (splitWordAnd p).map stripL else [p]

/-- `_split_aliases` (authors.py lines 7-21), for a string argument. -/
def splitAliasesL (s : List Char) : List (List Char) :=
  let s2 := subOuter (stripL s)
  let parts := ((splitSeps s2).filter (fun q => !q.isEmpty)).map stripL
  ((parts.map expandAnd).flatten).filter (fun q => !q.isEmpty)

/-- The processed candidate of `_clean_alias`: strip, remove outer junk,
strip again (authors.py lines 28-29). -/
def cleanCore (a : List Char) : List Char := stripL (subOuter (stripL a))

/-- The self-name test of `_clean_alias` line 32; a `none` author name
models a non-string (`NaN` / missing) value, for which the test is
skipped. -/
def nameMatches (a2 : List Char) (name : Option (List Char)) : Bool :=
  match name with
  | some n => decide (lowerL a2 = lowerL (stripL n))
  | none => false

/-- `_clean_alias` (authors.py lines 24-36), for a string candidate;
`[]` models the rejection result `''`. -/
def cleanAliasL (a : List Char) (author_name : Option (List Char)) : List Char :=
  let a2 := cleanCore a
  if a2.isEmpty then []
  else if lowerL a2 = ['n', 'o', 'n', 'e'] ∨ lowerL a2 = ['n', 'a', 'n'] then []
  else if nameMatches a2 author_name then []
  else if a2.any Char.isAlpha then a2
  else []

/-- Lines 106-111 of `list_authors`: split the raw field, clean each
piece, keep the non-rejected results. -/
def split_then_clean (raw : List Char) (name : Option (List Char)) : List (List Char) :=
  ((splitAliasesL raw).map (fun p => cleanAliasL p name)).filter (fun c => !c.isEmpty)

/-- One row of the authors table (spec §3 `AuthorRecord`); `none` models a
missing / `NaN` / non-string cell. -/
structure AuthorRow where
  author_id : Option Int
  author_name : Option (List Char)
  alias_field : Option (List Char)
deriving DecidableEq

/-- One row of the metadata table (spec §3 `MetadataRecord`). -/
structure MetaRow where
  gutenberg_id : Option Int
  author_id : Option Int
deriving DecidableEq

/-- One row of the languages table (spec §3 `LanguageRecord`). -/
structure LangRow where
  gutenberg_id : Option Int
  language : Option (List Char)
deriving DecidableEq

/-- Cleaned aliases contributed by one author row (authors.py lines
104-115), including the fallback that cleans the whole raw field when no
split piece survives. -/
def survivorsRow (row : AuthorRow) : List (List Char) :=
  match row.alias_field with
  | none => []
  | some raw =>
    let cleaned := split_then_clean raw row.author_name
    if cleaned.isEmpty then
      let c := cleanAliasL raw row.author_name
      if c.isEmpty then [] else [c]
    else cleaned

/-- The `(alias, count)` pairs produced by one author row: every surviving
alias paired with the row's translation count; a row with a missing
`author_id` is skipped (line 102) and produces nothing. -/
def rowPairs (row : AuthorRow) (tc : Int → Nat) : List (List Char × Nat) :=
  match row.author_id with
  | none => []
  | some aid => (survivorsRow row).map (fun a => (a, tc aid))

/-- The `(alias, count)` pairs produced by the `for _, row in
authors.iterrows()` loop, in loop order. -/
def contributions (authors : List AuthorRow) (tc : Int → Nat) : List (List Char × Nat) :=
  (authors.map (fun row => rowPairs row tc)).flatten

/-- `alias_to_count[a] = max(alias_to_count.get(a, 0), count)` on an
association list with Python-dict key order (update in place, insert at
the end). -/
def upsertMax (k : List Char) (v : Nat) : List (List Char × Nat) → List (List Char × Nat)
  | [] => [(k, v)]
  | (k2, v2) :: rest =>
    if k2 = k then (k2, Nat.max v2 v) :: rest else (k2, v2) :: upsertMax k v rest

/-- The accumulated `alias_to_count` mapping (authors.py lines 98-119). -/
def buildMap (contribs : List (List Char × Nat)) : List (List Char × Nat) :=
  contribs.foldl (fun m q => upsertMax q.1 q.2 m) []

/-- Association-list lookup. -/
def lookupA (k : List Char) : List (List Char × Nat) → Option Nat
  | [] => none
  | (k2, v2) :: rest => if k2 = k then some v2 else lookupA k rest

/-- Lookup with default `0`, as in `trans_count.get(aid, 0)`. -/
def lookupD (m : List (List Char × Nat)) (k : List Char) : Nat :=
  (lookupA k m).getD 0

/-- The maximum translation count over all records that produced a given
alias: `max` folded over the counts paired with that alias. -/
def maxCount (contribs : List (List Char × Nat)) (a : List Char) : Nat :=
  ((contribs.filter (fun q => decide (q.1 = a))).map (fun q => q.2)).foldr Nat.max 0

/-- Python string `<=` (code-point lexicographic order). -/
def lexLe : List Char → List Char → Bool
  | [], _ => true
  | _ :: _, [] => false
  | x :: xs, y :: ys =>
    if x.toNat = y.toNat then lexLe xs ys else decide (x.toNat < y.toNat)

/-- The sort key order of `sorted(..., key=lambda x: (-x[1], x[0].lower()))`:
count descending, then lowered alias ascending. -/
def keyLeB (x y : List Char × Nat) : Bool :=
  decide (y.2 < x.2) || (decide (x.2 = y.2) && lexLe (lowerL x.1) (lowerL y.1))

/-- `keyLeB` as a relation, for `List.insertionSort`. -/
def keyRel (x y : List Char × Nat) : Prop := keyLeB x y = true

instance : DecidableRel keyRel := fun x y => inferInstanceAs (Decidable (keyLeB x y = true))

instance : IsTotal (List Char × Nat) keyRel := by
  constructor
  have hlex : ∀ x y : List Char, lexLe x y = true ∨ lexLe y x = true := by
    intro x
    induction x with
    | nil => intro y; left; rfl
    | cons c cs ih =>
      intro y
      cases y with
      | nil => right; rfl
      | cons d ds =>
        by_cases h : c.toNat = d.toNat
        · rcases ih ds with h2 | h2
          · left; simp [lexLe, h, h2]
          · right; simp [lexLe, h.symm, h2]
        · rcases Nat.lt_or_ge c.toNat d.toNat with h2 | h2
          · left; simp [lexLe, h, h2]
          · right
            have h3 : d.toNat ≠ c.toNat := fun he => h he.symm
            have h4 : d.toNat < c.toNat := Nat.lt_of_le_of_ne h2 h3
            simp [lexLe, h3, h4]
  intro x y
  rcases Nat.lt_trichotomy x.2 y.2 with h | h | h
  · right; simp [keyRel, keyLeB, h]
  · rcases hlex (lowerL x.1) (lowerL y.1) with h2 | h2
    · left; simp [keyRel, keyLeB, h, h2]
    · right; simp [keyRel, keyLeB, h.symm, h2]
  · left; simp [keyRel, keyLeB, h]

instance : IsTrans (List Char × Nat) keyRel := by
  constructor
  have hlex : ∀ x y z : List Char,
      lexLe x y = true → lexLe y z = true → lexLe x z = true := by
    intro x
    induction x with
    | nil => intro y z _ _; rfl
    | cons c cs ih =>
      intro y z hxy hyz
      cases y with
      | nil => simp [lexLe] at hxy
      | cons d ds =>
        cases z with
        | nil => simp [lexLe] at hyz
        | cons e es =>
          by_cases h1 : c.toNat = d.toNat <;> by_cases h2 : d.toNat = e.toNat
          · have h3 : c.toNat = e.toNat := h1.trans h2
            simp only [lexLe, if_pos h1] at hxy
            simp only [lexLe, if_pos h2] at hyz
            simp only [lexLe, if_pos h3]
            exact ih ds es hxy hyz
          · simp only [lexLe, if_neg h2] at hyz
            have h3 : c.toNat ≠ e.toNat := by
              rw [h1]; exact h2
            simp only [lexLe, if_neg h3]
            rw [h1]; exact hyz
          · simp only [lexLe, if_neg h1] at hxy
            have h4 : c.toNat < d.toNat := of_decide_eq_true hxy
            have h3 : c.toNat ≠ e.toNat := by rw [← h2]; exact h1
            simp only [lexLe, if_neg h3]
            have : c.toNat < e.toNat := by rw [← h2]; exact h4
            exact decide_eq_true this
          · simp only [lexLe, if_neg h1] at hxy
            simp only [lexLe, if_neg h2] at hyz
            have h4 : c.toNat < d.toNat := of_decide_eq_true hxy
            have h5 : d.toNat < e.toNat := of_decide_eq_true hyz
            have h6 : c.toNat < e.toNat := Nat.lt_trans h4 h5
            have h3 : c.toNat ≠ e.toNat := Nat.ne_of_lt h6
            simp only [lexLe, if_neg h3]
            exact decide_eq_true h6
  intro x y z hxy hyz
  simp only [keyRel, keyLeB, Bool.or_eq_true, Bool.and_eq_true, decide_eq_true_eq] at *
  rcases hxy with h1 | ⟨h1, h1b⟩ <;> rcases hyz with h2 | ⟨h2, h2b⟩
  · exact Or.inl (Nat.lt_trans h2 h1)
  · exact Or.inl (h2 ▸ h1)
  · exact Or.inl (h1 ▸ h2)
  · exact Or.inr ⟨h1.trans h2, hlex _ _ _ h1b h2b⟩

/-- `sorted(alias_to_count.items(), key=lambda x: (-x[1], x[0].lower()))`
(authors.py line 121). -/
def rankedItems (authors : List AuthorRow) (tc : Int → Nat) : List (List Char × Nat) :=
  List.insertionSort keyRel (buildMap (contributions authors tc))

/-- `metadata[[gid, 'author_id']].dropna()` (line 73): the `(work, author)`
pairs with both cells present. -/
def tmpRows (metadata : List MetaRow) : List (Int × Int) :=
  metadata.filterMap (fun r =>
    match r.gutenberg_id, r.author_id with
    | some g, some a => some (g, a)
    | _, _ => none)

/-- The group of `tmp` rows belonging to one `author_id`. -/
def authorRows (metadata : List MetaRow) (aid : Int) : List (Int × Int) :=
  (tmpRows metadata).filter (fun p => decide (p.2 = aid))

/-- `languages[[gid, 'language']].drop_duplicates()` (line 74). -/
def langPairs (languages : List LangRow) : List (Option Int × Option (List Char)) :=
  (languages.map (fun r => (r.gutenberg_id, r.language))).dedup

/-- The language cells joined to one work id (`merge(..., on=gid,
how='left')`); the padding row of an unmatched work carries no language
value and is dropped by the subsequent `dropna`, so it is omitted here. -/
def matchedLangs (languages : List LangRow) (g : Int) : List (List Char) :=
  (langPairs languages).filterMap (fun q => if q.1 = some g then q.2 else none)

/-- `set(x for x in g['language'].dropna().astype(str).unique() if
x.strip())` for the group of `aid` (line 76), as a deduplicated list. -/
def authorLangs (metadata : List MetaRow) (languages : List LangRow) (aid : Int) :
    List (List Char) :=
  ((((authorRows metadata aid).map (fun p => matchedLangs languages p.1)).flatten).filter
    (fun s => !(stripL s).isEmpty)).dedup

/-- `g[g[gid].notna()][gid].nunique()` for the group of `aid` (line 77). -/
def authorGids (metadata : List MetaRow) (aid : Int) : List Int :=
  ((authorRows metadata aid).map (fun p => p.1)).dedup

/-- `trans_count.get(aid, 0)` for the language-join branch of
`list_authors` (authors.py lines 72-77): authors absent from the usable
metadata get the dict default `0`; an author whose works carry at least
one usable language code gets the number of distinct codes, otherwise the
number of distinct work ids. -/
def trans_count_of (metadata : List MetaRow) (languages : List LangRow) (aid : Int) : Nat :=
  if (tmpRows metadata).all (fun p => decide (p.2 ≠ aid)) then 0
  else if (authorLangs metadata languages aid).isEmpty then
    (authorGids metadata aid).length
  else (authorLangs metadata languages aid).length

/-- Modelled from the spec (§4.2): the number of distinct language codes
observed across all of an author's works, metadata joined to languages on
the work id; used to compare the code's count against the claimed one. -/
def specLangs (metadata : List MetaRow) (languages : List LangRow) (aid : Int) :
    List (List Char) :=
  (((authorRows metadata aid).map (fun p =>
    languages.filterMap (fun r =>
      if r.gutenberg_id = some p.1 then r.language else none))).flatten).dedup

/-- Modelled from the spec (§4.2): distinct-language count per author. -/
def specLangCount (metadata : List MetaRow) (languages : List LangRow) (aid : Int) : Nat :=
  (specLangs metadata languages aid).length

/-- Whether the first character of a list satisfies `p`. -/
def headSatB (p : Char → Bool) : List Char → Bool
  | [] => false
  | c :: _ => p c

/-- Whether a string contains a whole-word occurrence of `and`
(case-insensitive): splitting at word-boundary `and`s produces more than
one piece. -/
def hasWordAnd (l : List Char) : Bool := decide (2 ≤ (splitWordAnd l).length)

/-- Example authors table used by concrete witnesses. -/
def exAuthors : List AuthorRow := [⟨some 1, some "N".data, some "Ann, Bob".data⟩]

/-- Example tables realizing the max-wins scenario of spec §8 example 5:
two authors produce the same cleaned alias with translation counts 5
and 2. -/
def exAuthors2 : List AuthorRow :=
  [⟨some 10, some "X".data, some "A.N. Other".data⟩,
   ⟨some 20, some "Y".data, some "A.N. Other".data⟩]

/-- Metadata for `exAuthors2`: author 10 wrote work 1, author 20 work 2. -/
def exMeta2 : List MetaRow := [⟨some 1, some 10⟩, ⟨some 2, some 20⟩]

/-- Languages for `exAuthors2`: work 1 has five languages, work 2 two. -/
def exLangs2 : List LangRow :=
  [⟨some 1, some "aa".data⟩, ⟨some 1, some "bb".data⟩, ⟨some 1, some "cc".data⟩,
   ⟨some 1, some "dd".data⟩, ⟨some 1, some "ee".data⟩,
   ⟨some 2, some "aa".data⟩, ⟨some 2, some "bb".data⟩]

/-- `list_authors` (authors.py lines 39-122) for tables with the
normalized column names; `by_languages` is accepted and ignored exactly as
in the source, and `aliasFlag` models the `alias` parameter. -/
def list_authors (authors : List AuthorRow) (metadata : List MetaRow)
    (languages : List LangRow) (by_languages aliasFlag : Bool) : List (List Char) :=
  if aliasFlag then
    (rankedItems authors (trans_count_of metadata languages)).map (fun p => p.1)
  else []

/-! ### Helper lemmas about characters and stripping -/

theorem alpha_not_pySpace {c : Char} (h : c.isAlpha = true) : isPySpace c = false := by
  by_contra hb
  have hs : isPySpace c = true := by
    cases hx : isPySpace c
    · exact absurd hx hb
    · rfl
  simp only [isPySpace, Bool.or_eq_true, decide_eq_true_eq] at hs
  rcases hs with ((((h1 | h1) | h1) | h1) | h1) | h1 <;> subst h1 <;> simp at h

theorem alpha_not_openJ {c : Char} (h : c.isAlpha = true) : isOpenJ c = false := by
  by_contra hb
  have hs : isOpenJ c = true := by
    cases hx : isOpenJ c
    · exact absurd hx hb
    · rfl
  simp only [isOpenJ, Bool.or_eq_true, decide_eq_true_eq] at hs
  rcases hs with (h1 | h1) | h1 <;> subst h1 <;> simp at h

theorem alpha_not_closeJ {c : Char} (h : c.isAlpha = true) : isCloseJ c = false := by
  by_contra hb
  have hs : isCloseJ c = true := by
    cases hx : isCloseJ c
    · exact absurd hx hb
    · rfl
  simp only [isCloseJ, Bool.or_eq_true, decide_eq_true_eq] at hs
  rcases hs with (h1 | h1) | h1 <;> subst h1 <;> simp at h

theorem mem_dropWhile_of {p : Char → Bool} {c : Char} (hp : p c = false) :
    ∀ {l : List Char}, c ∈ l → c ∈ l.dropWhile p := by
  intro l
  induction l with
  | nil => intro h; exact absurd h (List.not_mem_nil c)
  | cons a t ih =>
    intro h
    by_cases ha : p a = true
    · rw [List.dropWhile_cons_of_pos ha]
      rcases List.mem_cons.mp h with he | ht
      · subst he; rw [hp] at ha; exact absurd ha (by simp)
      · exact ih ht
    · rw [List.dropWhile_cons_of_neg ha]
      exact h

theorem mem_of_dropWhile {p : Char → Bool} {c : Char} {l : List Char}
    (h : c ∈ l.dropWhile p) : c ∈ l :=
  (List.dropWhile_suffix p).sublist.subset h

theorem mem_rstripBy_of {p : Char → Bool} {c : Char} (hp : p c = false)
    {l : List Char} (h : c ∈ l) : c ∈ rstripBy p l := by
  unfold rstripBy
  rw [List.mem_reverse]
  exact mem_dropWhile_of hp (List.mem_reverse.mpr h)

theorem mem_of_rstripBy {p : Char → Bool} {c : Char} {l : List Char}
    (h : c ∈ rstripBy p l) : c ∈ l := by
  unfold rstripBy at h
  rw [List.mem_reverse] at h
  exact List.mem_reverse.mp (mem_of_dropWhile h)

theorem mem_stripL_of {c : Char} (hp : isPySpace c = false)
    {l : List Char} (h : c ∈ l) : c ∈ stripL l :=
  mem_rstripBy_of hp (mem_dropWhile_of hp h)

theorem mem_of_stripL {c : Char} {l : List Char} (h : c ∈ stripL l) : c ∈ l :=
  mem_of_dropWhile (mem_of_rstripBy h)

theorem mem_subOuter_of {c : Char} (ho : isOpenJ c = false) (hc : isCloseJ c = false)
    {l : List Char} (h : c ∈ l) : c ∈ subOuter l :=
  mem_rstripBy_of hc (mem_dropWhile_of ho h)

theorem mem_of_subOuter {c : Char} {l : List Char} (h : c ∈ subOuter l) : c ∈ l :=
  mem_of_dropWhile (mem_of_rstripBy h)

theorem mem_cleanCore_of {c : Char} (ha : c.isAlpha = true)
    {l : List Char} (h : c ∈ l) : c ∈ cleanCore l :=
  mem_stripL_of (alpha_not_pySpace ha)
    (mem_subOuter_of (alpha_not_openJ ha) (alpha_not_closeJ ha)
      (mem_stripL_of (alpha_not_pySpace ha) h))

theorem mem_of_cleanCore {c : Char} {l : List Char} (h : c ∈ cleanCore l) : c ∈ l :=
  mem_of_stripL (mem_of_subOuter (mem_of_stripL h))

theorem dropWhile_head_cases (p : Char → Bool) (l : List Char) :
    l.dropWhile p = [] ∨ ∃ c t, l.dropWhile p = c :: t ∧ p c = false := by
  induction l with
  | nil => exact Or.inl rfl
  | cons a t ih =>
    by_cases ha : p a = true
    · rw [List.dropWhile_cons_of_pos ha]; exact ih
    · rw [List.dropWhile_cons_of_neg ha]
      exact Or.inr ⟨a, t, rfl, Bool.eq_false_iff.mpr ha⟩

theorem dropWhile_idem (p : Char → Bool) (l : List Char) :
    (l.dropWhile p).dropWhile p = l.dropWhile p := by
  rcases dropWhile_head_cases p l with h | ⟨c, t, h, hc⟩
  · rw [h]; rfl
  · rw [h, List.dropWhile_cons_of_neg (by simp [hc])]

theorem rstripBy_prefix (p : Char → Bool) (l : List Char) : rstripBy p l <+: l := by
  have h : (l.reverse).dropWhile p <:+ l.reverse := List.dropWhile_suffix p
  have h2 := List.reverse_prefix.mpr h
  rwa [List.reverse_reverse] at h2

theorem dropWhile_rstripBy (p : Char → Bool) {l : List Char}
    (hl : l.dropWhile p = l) : (rstripBy p l).dropWhile p = rstripBy p l := by
  rcases dropWhile_head_cases p l with h | ⟨c, t, h, hc⟩
  · rw [hl] at h
    subst h
    rfl
  · rw [hl] at h
    subst h
    rcases hr : rstripBy p (c :: t) with _ | ⟨d, u⟩
    · rfl
    · have hpre := rstripBy_prefix p (c :: t)
      rw [hr] at hpre
      have hd : d = c := (List.cons_prefix_cons.mp hpre).1
      subst hd
      exact List.dropWhile_cons_of_neg (by simp [hc])

theorem rstripBy_idem (p : Char → Bool) (l : List Char) :
    rstripBy p (rstripBy p l) = rstripBy p l := by
  unfold rstripBy
  rw [List.reverse_reverse, dropWhile_idem]

theorem stripL_idem (l : List Char) : stripL (stripL l) = stripL l := by
  unfold stripL
  have h1 : (l.dropWhile isPySpace).dropWhile isPySpace = l.dropWhile isPySpace :=
    dropWhile_idem _ l
  rw [dropWhile_rstripBy _ h1, rstripBy_idem]

theorem subOuter_eq_self {l : List Char}
    (h1 : headSatB isOpenJ l = false) (h2 : headSatB isCloseJ l.reverse = false) :
    subOuter l = l := by
  have hd : l.dropWhile isOpenJ = l := by
    cases l with
    | nil => rfl
    | cons c t =>
      simp only [headSatB] at h1
      exact List.dropWhile_cons_of_neg (by simp [h1])
  unfold subOuter
  rw [hd]
  rcases hr : l.reverse with _ | ⟨d, u⟩
  · have : l = [] := by
      have := congrArg List.reverse hr
      rwa [List.reverse_reverse] at this
    subst this
    rfl
  · rw [hr] at h2
    simp only [headSatB] at h2
    unfold rstripBy
    rw [hr, List.dropWhile_cons_of_neg (by simp [h2]), ← hr, List.reverse_reverse]

theorem subOuter_eq_self_of_chars {l : List Char}
    (h : ∀ c ∈ l, isOpenJ c = false ∧ isCloseJ c = false) : subOuter l = l := by
  apply subOuter_eq_self
  · cases l with
    | nil => rfl
    | cons c t => exact (h c (List.mem_cons_self c t)).1
  · rcases hr : l.reverse with _ | ⟨d, u⟩
    · rfl
    · have hd : d ∈ l := by
        rw [← List.mem_reverse, hr]
        exact List.mem_cons_self d u
      exact (h d hd).2

theorem splitSepsAux_no_sep {l : List Char} (h : ∀ c ∈ l, isSepC c = false) :
    ∀ acc, splitSepsAux acc l = [acc.reverse ++ l] := by
  induction l with
  | nil => intro acc; simp [splitSepsAux]
  | cons c t ih =>
    intro acc
    have hc : isSepC c = false := h c (List.mem_cons_self c t)
    have ht : ∀ d ∈ t, isSepC d = false := fun d hd => h d (List.mem_cons_of_mem c hd)
    simp only [splitSepsAux, hc, Bool.false_eq_true, if_false, ih ht]
    simp

theorem splitSeps_no_sep {l : List Char} (h : ∀ c ∈ l, isSepC c = false) :
    splitSeps l = [l] := by
  unfold splitSeps
  rw [splitSepsAux_no_sep h]
  simp

/-! ### Lemmas about the word-boundary `and` splitter -/

theorem char_toNat_ofNat {n : Nat} (h : n.isValidChar) : (Char.ofNat n).toNat = n := by
  unfold Char.ofNat
  rw [dif_pos h]
  unfold Char.ofNatAux Char.toNat
  simp [UInt32.toNat]

theorem toLower_eq_space {c : Char} (h : c.toLower = ' ') : c = ' ' := by
  unfold Char.toLower at h
  simp only [ge_iff_le] at h
  by_cases hc : 65 ≤ c.toNat ∧ c.toNat ≤ 90
  · rw [if_pos hc] at h
    have hv : (c.toNat + 32).isValidChar := Or.inl (by omega)
    have h32 : (Char.ofNat (c.toNat + 32)).toNat = c.toNat + 32 := char_toNat_ofNat hv
    have := congrArg Char.toNat h
    rw [h32] at this
    have hsp : (' ' : Char).toNat = 32 := by decide
    omega
  · rwa [if_neg hc] at h

theorem leadsWith_exists {pat : List Char} :
    ∀ {l : List Char}, leadsWith pat l = true → ∃ t, l = pat ++ t := by
  induction pat with
  | nil => intro l _; exact ⟨l, rfl⟩
  | cons p ps ih =>
    intro l h
    cases l with
    | nil => simp [leadsWith] at h
    | cons c cs =>
      simp only [leadsWith, Bool.and_eq_true, decide_eq_true_eq] at h
      obtain ⟨t, ht⟩ := ih h.2
      exact ⟨t, by rw [h.1, ht]; rfl⟩

theorem splitAndAux_pos :
    ∀ (n : Nat) (l : List Char) (prevW : Bool) (acc : List Char),
      l.length ≤ n → 0 < (splitAndAux prevW acc l).length := by
  intro n
  induction n with
  | zero =>
    intro l prevW acc hl
    have : l = [] := List.length_eq_zero.mp (Nat.le_zero.mp hl)
    subst this
    simp [splitAndAux]
  | succ n ih =>
    intro l prevW acc hl
    match l with
    | [] => simp [splitAndAux]
    | [c] => simp [splitAndAux]
    | [c, c2] => simp [splitAndAux]
    | c1 :: c2 :: c3 :: rest =>
      by_cases hc : (prevW = false && isAndChars c1 c2 c3 && boundaryAfter rest) = true
      · rw [splitAndAux, if_pos hc]
        simp
      · rw [splitAndAux, if_neg hc]
        apply ih
        simp only [List.length_cons] at hl ⊢
        omega

theorem splitWordAnd_pos (l : List Char) : 0 < (splitWordAnd l).length :=
  splitAndAux_pos l.length l false [] (Nat.le_refl _)

theorem containsSub_two_pieces :
    ∀ (n : Nat) (l : List Char) (prevW : Bool) (acc : List Char),
      l.length ≤ n → containsSub sAndPat (lowerL l) = true →
      2 ≤ (splitAndAux prevW acc l).length := by
  intro n
  induction n with
  | zero =>
    intro l prevW acc hl hc
    have : l = [] := List.length_eq_zero.mp (Nat.le_zero.mp hl)
    subst this
    simp [containsSub, leadsWith, lowerL, sAndPat] at hc
  | succ n ih =>
    intro l prevW acc hl hc
    cases l with
    | nil => simp [containsSub, leadsWith, lowerL, sAndPat] at hc
    | cons c rest =>
      simp only [lowerL, List.map_cons] at hc
      rw [containsSub, Bool.or_eq_true] at hc
      rcases hc with hh | ht
      · -- the pattern ' and ' occurs at the head of the lowered list
        match rest with
        | [] => simp [leadsWith, sAndPat] at hh
        | [d1] => simp [leadsWith, sAndPat, lowerL] at hh
        | [d1, d2] => simp [leadsWith, sAndPat, lowerL] at hh
        | [d1, d2, d3] => simp [leadsWith, sAndPat, lowerL] at hh
        | d1 :: d2 :: d3 :: d4 :: t0 =>
          simp only [sAndPat, leadsWith, lowerL, List.map_cons, Bool.and_eq_true,
            decide_eq_true_eq] at hh
          obtain ⟨h1, h2, h3, h4, h5, _⟩ := hh
          have hc1 : c = ' ' := toLower_eq_space h1.symm
          have hd4 : d4 = ' ' := toLower_eq_space h5.symm
          subst hc1
          subst hd4
          have hlow : Char.toLower ' ' = ' ' := by decide
          have hw : isWordChar ' ' = false := by decide
          have hcond1 :
              (prevW = false && isAndChars ' ' d1 d2 && boundaryAfter (d3 :: ' ' :: t0)) =
                false := by
            simp [isAndChars, hlow]
          have hcond2 :
              (decide (false = false) && isAndChars d1 d2 d3 && boundaryAfter (' ' :: t0)) =
                true := by
            simp [isAndChars, ← h2, ← h3, ← h4, boundaryAfter, hw]
          rw [splitAndAux, if_neg (by rw [hcond1]; simp), hw, splitAndAux, if_pos hcond2]
          have hp := splitAndAux_pos (' ' :: t0).length (' ' :: t0) true [] (Nat.le_refl _)
          simp only [List.length_cons]
          omega
      · -- the pattern occurs in the tail
        match rest with
        | [] => simp [containsSub, leadsWith, sAndPat, lowerL] at ht
        | [d1] =>
          simp [containsSub, leadsWith, sAndPat, lowerL] at ht
        | d1 :: d2 :: t0 =>
          by_cases hg : (prevW = false && isAndChars c d1 d2 && boundaryAfter t0) = true
          · rw [splitAndAux, if_pos hg]
            have := splitAndAux_pos t0.length t0 true [] (Nat.le_refl _)
            simp only [List.length_cons]
            omega
          · rw [splitAndAux, if_neg hg]
            apply ih (d1 :: d2 :: t0) (isWordChar c) (c :: acc)
            · simp only [List.length_cons] at hl ⊢
              omega
            · exact ht

theorem containsSub_ne_nil {pat : List Char} {c : Char} {cs l : List Char}
    (hp : pat = c :: cs) (h : containsSub pat l = true) : l ≠ [] := by
  intro hl
  subst hl
  subst hp
  simp [containsSub, leadsWith] at h

theorem not_containsSub_of_not_hasWordAnd {l : List Char}
    (h : hasWordAnd l = false) : containsSub sAndPat (lowerL l) = false := by
  by_contra hb
  have hc : containsSub sAndPat (lowerL l) = true := by
    cases hx : containsSub sAndPat (lowerL l)
    · exact absurd hx hb
    · rfl
  have h2 := containsSub_two_pieces l.length l false [] (Nat.le_refl _) hc
  unfold hasWordAnd splitWordAnd at h
  simp only [decide_eq_false_iff_not] at h
  exact h h2

/-! ### Lemmas about `_clean_alias` -/

theorem clean_pass {a : List Char} {name : Option (List Char)}
    (hne : (cleanCore a).isEmpty = false)
    (hnn : ¬(lowerL (cleanCore a) = ['n', 'o', 'n', 'e'] ∨
             lowerL (cleanCore a) = ['n', 'a', 'n']))
    (hnm : nameMatches (cleanCore a) name = false)
    (hal : (cleanCore a).any Char.isAlpha = true) :
    cleanAliasL a name = cleanCore a := by
  simp only [cleanAliasL]
  rw [if_neg (by simp [hne]), if_neg hnn, if_neg (by simp [hnm]), if_pos hal]

theorem clean_cases (a : List Char) (name : Option (List Char)) :
    cleanAliasL a name = [] ∨
      (cleanAliasL a name = cleanCore a ∧ (cleanCore a).isEmpty = false ∧
       ¬(lowerL (cleanCore a) = ['n', 'o', 'n', 'e'] ∨
         lowerL (cleanCore a) = ['n', 'a', 'n']) ∧
       nameMatches (cleanCore a) name = false ∧
       (cleanCore a).any Char.isAlpha = true) := by
  simp only [cleanAliasL]
  split_ifs with h1 h2 h3 h4
  · exact Or.inl rfl
  · exact Or.inl rfl
  · exact Or.inl rfl
  · exact Or.inr ⟨rfl, by simpa using h1, h2, by simpa using h3, h4⟩
  · exact Or.inl rfl

theorem clean_ne_nil_alpha {a : List Char} {name : Option (List Char)}
    (h : cleanAliasL a name ≠ []) :
    cleanAliasL a name = cleanCore a ∧ (cleanCore a).any Char.isAlpha = true := by
  rcases clean_cases a name with he | ⟨he, _, _, _, hal⟩
  · exact absurd he h
  · exact ⟨he, hal⟩

/-! ### Lemmas about the accumulated `alias_to_count` mapping -/

theorem maxCount_cons (k : List Char) (v : Nat) (T : List (List Char × Nat)) (x : List Char) :
    maxCount ((k, v) :: T) x =
      if k = x then Nat.max v (maxCount T x) else maxCount T x := by
  unfold maxCount
  by_cases h : k = x
  · simp [List.filter_cons, h]
  · simp [List.filter_cons, h]

theorem lookupD_upsert (k : List Char) (v : Nat) (m : List (List Char × Nat)) (x : List Char) :
    lookupD (upsertMax k v m) x =
      if x = k then Nat.max (lookupD m k) v else lookupD m x := by
  induction m with
  | nil =>
    by_cases hx : x = k
    · subst hx
      simp [upsertMax, lookupD, lookupA, Nat.zero_max]
    · have hkx : ¬k = x := fun h => hx h.symm
      simp [upsertMax, lookupD, lookupA, hx, hkx]
  | cons hd tl ih =>
    obtain ⟨k2, v2⟩ := hd
    by_cases hk : k2 = k
    · subst hk
      rw [upsertMax, if_pos rfl]
      by_cases hx : x = k2
      · subst hx
        simp [lookupD, lookupA]
      · have hkx : ¬k2 = x := fun h => hx h.symm
        simp [lookupD, lookupA, hx, hkx]
    · rw [upsertMax, if_neg hk]
      by_cases hx : k2 = x
      · subst hx
        rw [if_neg hk]
        simp [lookupD, lookupA]
      · simp only [lookupD, lookupA, if_neg hx, if_neg hk]
        by_cases hxx : x = k
        · subst hxx
          rw [if_pos rfl]
          have := ih
          rw [if_pos rfl] at this
          simpa [lookupD] using this
        · rw [if_neg hxx]
          have := ih
          rw [if_neg hxx] at this
          simpa [lookupD] using this

theorem mem_keys_upsert (k : List Char) (v : Nat) (m : List (List Char × Nat)) (x : List Char) :
    x ∈ (upsertMax k v m).map Prod.fst ↔ x ∈ m.map Prod.fst ∨ x = k := by
  induction m with
  | nil => simp [upsertMax, eq_comm]
  | cons hd tl ih =>
    obtain ⟨k2, v2⟩ := hd
    by_cases hk : k2 = k
    · subst hk
      rw [upsertMax, if_pos rfl]
      simp only [List.map_cons, List.mem_cons]
      constructor
      · intro h; exact Or.inl h
      · rintro ((h | h) | h)
        · exact Or.inl h
        · exact Or.inr h
        · exact Or.inl h
    · rw [upsertMax, if_neg hk]
      simp only [List.map_cons, List.mem_cons, ih]
      tauto

theorem nodup_keys_upsert (k : List Char) (v : Nat) {m : List (List Char × Nat)}
    (h : (m.map Prod.fst).Nodup) : ((upsertMax k v m).map Prod.fst).Nodup := by
  induction m with
  | nil => simp [upsertMax]
  | cons hd tl ih =>
    obtain ⟨k2, v2⟩ := hd
    simp only [List.map_cons, List.nodup_cons] at h
    by_cases hk : k2 = k
    · subst hk
      rw [upsertMax, if_pos rfl]
      simp only [List.map_cons, List.nodup_cons]
      exact ⟨h.1, h.2⟩
    · rw [upsertMax, if_neg hk]
      simp only [List.map_cons, List.nodup_cons]
      refine ⟨?_, ih h.2⟩
      rw [mem_keys_upsert]
      rintro (hm | he)
      · exact h.1 hm
      · exact hk he

theorem lookupD_foldl :
    ∀ (L : List (List Char × Nat)) (m : List (List Char × Nat)) (x : List Char),
      lookupD (L.foldl (fun m q => upsertMax q.1 q.2 m) m) x =
        Nat.max (lookupD m x) (maxCount L x) := by
  intro L
  induction L with
  | nil => intro m x; simp [maxCount]
  | cons q T ih =>
    intro m x
    obtain ⟨k, v⟩ := q
    rw [List.foldl_cons]
    rw [ih (upsertMax k v m) x, lookupD_upsert, maxCount_cons]
    by_cases hx : x = k
    · subst hx
      rw [if_pos rfl, if_pos rfl]
      exact Nat.max_assoc _ _ _
    · rw [if_neg hx, if_neg (fun h => hx h.symm)]

theorem lookupD_buildMap (L : List (List Char × Nat)) (x : List Char) :
    lookupD (buildMap L) x = maxCount L x := by
  unfold buildMap
  rw [lookupD_foldl]
  simp [lookupD, lookupA]

theorem mem_keys_foldl :
    ∀ (L : List (List Char × Nat)) (m : List (List Char × Nat)) (x : List Char),
      x ∈ ((L.foldl (fun m q => upsertMax q.1 q.2 m) m).map Prod.fst) ↔
        x ∈ m.map Prod.fst ∨ x ∈ L.map Prod.fst := by
  intro L
  induction L with
  | nil => intro m x; simp
  | cons q T ih =>
    intro m x
    obtain ⟨k, v⟩ := q
    rw [List.foldl_cons, ih, mem_keys_upsert]
    simp only [List.map_cons, List.mem_cons]
    tauto

theorem mem_keys_buildMap (L : List (List Char × Nat)) (x : List Char) :
    x ∈ (buildMap L).map Prod.fst ↔ x ∈ L.map Prod.fst := by
  unfold buildMap
  rw [mem_keys_foldl]
  simp

theorem nodup_keys_foldl :
    ∀ (L : List (List Char × Nat)) (m : List (List Char × Nat)),
      (m.map Prod.fst).Nodup →
      ((L.foldl (fun m q => upsertMax q.1 q.2 m) m).map Prod.fst).Nodup := by
  intro L
  induction L with
  | nil => intro m h; exact h
  | cons q T ih =>
    intro m h
    rw [List.foldl_cons]
    exact ih _ (nodup_keys_upsert q.1 q.2 h)

theorem nodup_keys_buildMap (L : List (List Char × Nat)) :
    ((buildMap L).map Prod.fst).Nodup :=
  nodup_keys_foldl L [] (by simp)

theorem lookupA_of_mem :
    ∀ {m : List (List Char × Nat)}, (m.map Prod.fst).Nodup →
      ∀ {p : List Char × Nat}, p ∈ m → lookupA p.1 m = some p.2 := by
  intro m
  induction m with
  | nil => intro _ p hp; exact absurd hp (List.not_mem_nil p)
  | cons hd tl ih =>
    intro h p hp
    obtain ⟨k2, v2⟩ := hd
    simp only [List.map_cons, List.nodup_cons] at h
    rcases List.mem_cons.mp hp with he | ht
    · subst he
      simp [lookupA]
    · by_cases hk : k2 = p.1
      · exfalso
        apply h.1
        rw [hk]
        exact List.mem_map.mpr ⟨p, ht, rfl⟩
      · simp only [lookupA, if_neg hk]
        exact ih h.2 ht

/-! ### Set-cardinality helper -/

theorem length_eq_of_mem_iff {l1 l2 : List (List Char)} (h1 : l1.Nodup) (h2 : l2.Nodup)
    (h : ∀ s, s ∈ l1 ↔ s ∈ l2) : l1.length = l2.length := by
  have he : l1.toFinset = l2.toFinset := by
    apply Finset.ext
    intro s
    simp only [List.mem_toFinset]
    exact h s
  have c1 := List.toFinset_card_of_nodup h1
  have c2 := List.toFinset_card_of_nodup h2
  rw [← c1, ← c2, he]

/-! ### Membership lemmas for the language join -/

theorem mem_specLangs {md : List MetaRow} {lg : List LangRow} {aid : Int} {s : List Char} :
    s ∈ specLangs md lg aid ↔
      ∃ p ∈ authorRows md aid, ∃ r ∈ lg,
        r.gutenberg_id = some p.1 ∧ r.language = some s := by
  unfold specLangs
  constructor
  · intro hs
    rw [List.mem_dedup, List.mem_flatten] at hs
    obtain ⟨x, hx, hsx⟩ := hs
    rw [List.mem_map] at hx
    obtain ⟨p, hp, hfx⟩ := hx
    subst hfx
    rw [List.mem_filterMap] at hsx
    obtain ⟨r, hr, hcond⟩ := hsx
    rw [Option.ite_none_right_eq_some] at hcond
    exact ⟨p, hp, r, hr, hcond.1, hcond.2⟩
  · rintro ⟨p, hp, r, hr, hg, hl⟩
    rw [List.mem_dedup, List.mem_flatten]
    refine ⟨_, List.mem_map.mpr ⟨p, hp, rfl⟩, ?_⟩
    rw [List.mem_filterMap]
    refine ⟨r, hr, ?_⟩
    rw [Option.ite_none_right_eq_some]
    exact ⟨hg, hl⟩

theorem mem_authorLangs {md : List MetaRow} {lg : List LangRow} {aid : Int} {s : List Char} :
    s ∈ authorLangs md lg aid ↔
      ((∃ p ∈ authorRows md aid, ∃ r ∈ lg,
          r.gutenberg_id = some p.1 ∧ r.language = some s) ∧
        (stripL s).isEmpty = false) := by
  unfold authorLangs
  constructor
  · intro hs
    rw [List.mem_dedup, List.mem_filter] at hs
    obtain ⟨hmem, hblank⟩ := hs
    rw [List.mem_flatten] at hmem
    obtain ⟨x, hx, hsx⟩ := hmem
    rw [List.mem_map] at hx
    obtain ⟨p, hp, hfx⟩ := hx
    subst hfx
    unfold matchedLangs langPairs at hsx
    rw [List.mem_filterMap] at hsx
    obtain ⟨q, hq, hcond⟩ := hsx
    rw [Option.ite_none_right_eq_some] at hcond
    rw [List.mem_dedup, List.mem_map] at hq
    obtain ⟨r, hr, hqr⟩ := hq
    subst hqr
    exact ⟨⟨p, hp, r, hr, hcond.1, hcond.2⟩, by simpa using hblank⟩
  · rintro ⟨⟨p, hp, r, hr, hg, hl⟩, hblank⟩
    rw [List.mem_dedup, List.mem_filter]
    constructor
    · rw [List.mem_flatten]
      refine ⟨_, List.mem_map.mpr ⟨p, hp, rfl⟩, ?_⟩
      unfold matchedLangs langPairs
      rw [List.mem_filterMap]
      refine ⟨(r.gutenberg_id, r.language), ?_, ?_⟩
      · rw [List.mem_dedup, List.mem_map]
        exact ⟨r, hr, rfl⟩
      · rw [Option.ite_none_right_eq_some]
        exact ⟨hg, hl⟩
    · simpa using hblank

theorem mem_authorRows {md : List MetaRow} {aid : Int} {p : Int × Int} :
    p ∈ authorRows md aid ↔ p ∈ tmpRows md ∧ p.2 = aid := by
  unfold authorRows
  simp [List.mem_filter]

/-! ### Lemmas about contributed aliases -/

theorem survivors_shape {row : AuthorRow} {s : List Char} (h : s ∈ survivorsRow row) :
    ∃ a, cleanAliasL a row.author_name = s ∧ s ≠ [] := by
  obtain ⟨rid, rname, raf⟩ := row
  rcases raf with _ | raw
  · exact absurd h (List.not_mem_nil s)
  · have hrw : survivorsRow ⟨rid, rname, some raw⟩ =
        if (split_then_clean raw rname).isEmpty = true then
          (if (cleanAliasL raw rname).isEmpty = true then [] else [cleanAliasL raw rname])
        else split_then_clean raw rname := rfl
    rw [hrw] at h
    by_cases hcl : (split_then_clean raw rname).isEmpty = true
    · rw [if_pos hcl] at h
      by_cases hc2 : (cleanAliasL raw rname).isEmpty = true
      · rw [if_pos hc2] at h
        exact absurd h (List.not_mem_nil s)
      · rw [if_neg hc2] at h
        have he := List.mem_singleton.mp h
        refine ⟨raw, he.symm, ?_⟩
        rw [he]
        intro hnil
        rw [hnil] at hc2
        exact hc2 rfl
    · rw [if_neg hcl] at h
      unfold split_then_clean at h
      simp only [List.mem_filter, List.mem_map] at h
      obtain ⟨⟨a, _, ha⟩, hne⟩ := h
      refine ⟨a, ha, ?_⟩
      intro hnil
      rw [hnil] at hne
      simp at hne

theorem rowPairs_fst_mem {row : AuthorRow} {tc : Int → Nat} {s : List Char}
    (h : s ∈ (rowPairs row tc).map Prod.fst) : s ∈ survivorsRow row := by
  obtain ⟨rid, rname, raf⟩ := row
  rcases rid with _ | aid
  · exact absurd h (List.not_mem_nil s)
  · simp only [rowPairs, List.map_map, List.mem_map, Function.comp] at h
    obtain ⟨a, ha, he⟩ := h
    rw [← he]
    exact ha

theorem contributions_fst_mem {authors : List AuthorRow} {tc : Int → Nat} {s : List Char}
    (h : s ∈ (contributions authors tc).map Prod.fst) :
    ∃ row ∈ authors, s ∈ survivorsRow row := by
  unfold contributions at h
  simp only [List.map_flatten, List.mem_flatten, List.map_map, List.mem_map,
    Function.comp] at h
  obtain ⟨x, ⟨row, hrow, hx⟩, hsx⟩ := h
  refine ⟨row, hrow, ?_⟩
  rw [← hx] at hsx
  exact rowPairs_fst_mem hsx

/-! ### Claim C9 -/

/-- Claim C9: calling the exposed entry point with the alias flag set to
false returns an empty sequence, regardless of the `by_languages` flag and
regardless of table contents. -/
theorem list_authors_alias_false (authors : List AuthorRow) (metadata : List MetaRow)
    (languages : List LangRow) (b : Bool) :
    list_authors authors metadata languages b false = [] := rfl

/-! ### Claim C2 -/

/-- Claim C2: the ranked item list behind the entry point's output is sorted
by translation count descending with ties broken by the lowered alias
ascending: for any two adjacent items `x`, `y`, the count of `y` is at most
that of `x`, and when the counts are equal the lowered alias of `x` is
lexicographically at most that of `y`; the entry point returns exactly the
aliases of this item list. -/
theorem list_authors_sorted (authors : List AuthorRow) (metadata : List MetaRow)
    (languages : List LangRow) (b : Bool) (pre suf : List (List Char × Nat))
    (x y : List Char × Nat)
    (h : rankedItems authors (trans_count_of metadata languages) = pre ++ x :: y :: suf) :
    list_authors authors metadata languages b true =
      (rankedItems authors (trans_count_of metadata languages)).map (fun p => p.1) ∧
    y.2 ≤ x.2 ∧ (x.2 = y.2 → lexLe (lowerL x.1) (lowerL y.1) = true) := by
  refine ⟨rfl, ?_⟩
  have hs : List.Sorted keyRel (rankedItems authors (trans_count_of metadata languages)) :=
    List.sorted_insertionSort keyRel _
  rw [h] at hs
  have hp : List.Pairwise keyRel (x :: y :: suf) := (List.pairwise_append.mp hs).2.1
  have hxy : keyRel x y := (List.pairwise_cons.mp hp).1 y (List.mem_cons_self y suf)
  simp only [keyRel, keyLeB, Bool.or_eq_true, Bool.and_eq_true, decide_eq_true_eq] at hxy
  rcases hxy with h1 | ⟨h1, h2⟩
  · exact ⟨Nat.le_of_lt h1, fun he => absurd h1 (by omega)⟩
  · exact ⟨Nat.le_of_eq h1.symm, fun _ => h2⟩

/-- Witness for C2 at concrete tables. -/
theorem list_authors_sorted_witness :
    list_authors exAuthors [] [] true true =
      (rankedItems exAuthors (trans_count_of [] [])).map (fun p => p.1) ∧
    (("Bob".data, 0) : List Char × Nat).2 ≤ (("Ann".data, 0) : List Char × Nat).2 ∧
    ((("Ann".data, 0) : List Char × Nat).2 = (("Bob".data, 0) : List Char × Nat).2 →
      lexLe (lowerL (("Ann".data, 0) : List Char × Nat).1)
        (lowerL (("Bob".data, 0) : List Char × Nat).1) = true) :=
  list_authors_sorted exAuthors [] [] true [] [] ("Ann".data, 0) ("Bob".data, 0) (by decide)

/-! ### Claim C3 -/

/-- Claim C3: each distinct cleaned alias appears exactly once among the
ranked items (their alias components are pairwise distinct, and an alias
appears among them exactly when some author record produced it), and the
count stored with an alias is the maximum translation count over all
records that produced it. -/
theorem alias_once_max_count (authors : List AuthorRow) (metadata : List MetaRow)
    (languages : List LangRow) :
    ((rankedItems authors (trans_count_of metadata languages)).map (fun p => p.1)).Nodup ∧
    (∀ p, p ∈ rankedItems authors (trans_count_of metadata languages) →
      p.2 = maxCount (contributions authors (trans_count_of metadata languages)) p.1) ∧
    (∀ a, a ∈ (contributions authors (trans_count_of metadata languages)).map Prod.fst ↔
      a ∈ (rankedItems authors (trans_count_of metadata languages)).map (fun p => p.1)) := by
  have hperm : List.Perm (rankedItems authors (trans_count_of metadata languages))
      (buildMap (contributions authors (trans_count_of metadata languages))) :=
    List.perm_insertionSort keyRel _
  have hm := hperm.map (fun p : List Char × Nat => p.1)
  refine ⟨?_, ?_, ?_⟩
  · exact hm.nodup_iff.mpr (nodup_keys_buildMap _)
  · intro p hp
    have hpm := hperm.mem_iff.mp hp
    have hl := lookupA_of_mem (nodup_keys_buildMap _) hpm
    have h2 : lookupD (buildMap (contributions authors (trans_count_of metadata languages)))
        p.1 = p.2 := by
      unfold lookupD
      rw [hl]
      rfl
    rw [← lookupD_buildMap]
    exact h2.symm
  · intro a
    exact (mem_keys_buildMap _ a).symm.trans hm.mem_iff.symm

/-- Witness for C3: two authors produce the same cleaned alias with counts
5 and 2; it appears with count 5, the maximum over its producers. -/
theorem alias_once_max_count_witness :
    ("A.N. Other".data, 5) ∈ rankedItems exAuthors2 (trans_count_of exMeta2 exLangs2) ∧
    (("A.N. Other".data, 5) : List Char × Nat).2 =
      maxCount (contributions exAuthors2 (trans_count_of exMeta2 exLangs2))
        (("A.N. Other".data, 5) : List Char × Nat).1 :=
  ⟨by decide, (alias_once_max_count exAuthors2 exMeta2 exLangs2).2.1 _ (by decide)⟩

/-! ### Claim C10 -/

/-- Claim C10: every string in the sequence returned by the entry point is
non-empty and contains at least one alphabetic character. -/
theorem output_nonempty_alpha (authors : List AuthorRow) (metadata : List MetaRow)
    (languages : List LangRow) (b fl : Bool) (s : List Char)
    (hs : s ∈ list_authors authors metadata languages b fl) :
    s ≠ [] ∧ s.any Char.isAlpha = true := by
  unfold list_authors at hs
  cases fl
  · simp at hs
  · rw [if_pos rfl] at hs
    rw [List.mem_map] at hs
    obtain ⟨p, hp, he⟩ := hs
    have hpm : p ∈ buildMap (contributions authors (trans_count_of metadata languages)) :=
      (List.perm_insertionSort keyRel _).mem_iff.mp hp
    have hk : p.1 ∈ (buildMap (contributions authors
        (trans_count_of metadata languages))).map Prod.fst :=
      List.mem_map.mpr ⟨p, hpm, rfl⟩
    rw [mem_keys_buildMap] at hk
    obtain ⟨row, hrow, hsv⟩ := contributions_fst_mem hk
    obtain ⟨a, ha, hne⟩ := survivors_shape hsv
    have hse : p.1 = s := he
    rw [← hse]
    refine ⟨hne, ?_⟩
    have h2 := @clean_ne_nil_alpha a row.author_name (by rw [ha]; exact hne)
    rw [ha] at h2
    rw [h2.1]
    exact h2.2

/-- Witness for C10 at concrete tables. -/
theorem output_nonempty_alpha_witness :
    "Ann".data ≠ ([] : List Char) ∧ ("Ann".data).any Char.isAlpha = true :=
  output_nonempty_alpha exAuthors [] [] true true "Ann".data (by decide)

/-! ### Claim C4 -/

/-- Claim C4 counterexample: `_clean_alias` contains no URL rejection; the
URL candidate of spec §8 scenario 3 is returned unchanged, not rejected. -/
theorem clean_url_cx :
    cleanAliasL "http://example.com".data (some "Author C".data) =
      "http://example.com".data ∧
    "http://example.com".data ≠ ([] : List Char) := by decide

/-- Claim C4 amended: a candidate whose cleaned form starts with `http://`
or `https://` is returned (not rejected) whenever it does not
case-insensitively equal the author's name; the URL prefix itself
guarantees the remaining checks pass. -/
theorem clean_url_kept (a : List Char) (name : Option (List Char))
    (h1 : leadsWith ['h', 't', 't', 'p', ':', '/', '/'] (cleanCore a) = true ∨
          leadsWith ['h', 't', 't', 'p', 's', ':', '/', '/'] (cleanCore a) = true)
    (h2 : nameMatches (cleanCore a) name = false) :
    cleanAliasL a name = cleanCore a ∧ cleanCore a ≠ [] := by
  have hsh : ∃ t, cleanCore a = 'h' :: 't' :: 't' :: 'p' :: t := by
    rcases h1 with h | h
    · obtain ⟨t, ht⟩ := leadsWith_exists h
      exact ⟨':' :: '/' :: '/' :: t, by simpa using ht⟩
    · obtain ⟨t, ht⟩ := leadsWith_exists h
      exact ⟨'s' :: ':' :: '/' :: '/' :: t, by simpa using ht⟩
  obtain ⟨t, ht⟩ := hsh
  have hlh : Char.toLower 'h' = 'h' := by decide
  have hia : Char.isAlpha 'h' = true := by decide
  have hne : (cleanCore a).isEmpty = false := by rw [ht]; rfl
  have hnn : ¬(lowerL (cleanCore a) = ['n', 'o', 'n', 'e'] ∨
      lowerL (cleanCore a) = ['n', 'a', 'n']) := by
    rw [ht]
    rintro (hx | hx) <;> simp [lowerL, hlh] at hx
  have hal : (cleanCore a).any Char.isAlpha = true := by
    rw [ht]
    simp [hia]
  exact ⟨clean_pass hne hnn h2 hal, by rw [ht]; simp⟩

/-- Witness for the amended C4. -/
theorem clean_url_kept_witness :
    cleanAliasL "http://example.com".data (some "q".data) =
      cleanCore "http://example.com".data ∧
    cleanCore "http://example.com".data ≠ [] :=
  clean_url_kept _ _ (Or.inl (by decide)) (by decide)

/-! ### Claim C5 -/

/-- Claim C5 counterexample: a candidate with exactly one alphabetic
character (fewer than 2) survives cleaning. -/
theorem clean_one_letter_cx :
    cleanAliasL "J.".data (some "Bob".data) = "J.".data ∧
    (("J.".data).filter Char.isAlpha).length = 1 ∧
    "J.".data ≠ ([] : List Char) := by decide

/-- Claim C5 amended: only candidates with no alphabetic character at all
are rejected by the letter check; cleaning any candidate without letters
returns absent. -/
theorem clean_letterless_rejected (a : List Char) (name : Option (List Char))
    (h : a.any Char.isAlpha = false) : cleanAliasL a name = [] := by
  rcases clean_cases a name with he | ⟨_, _, _, _, hal⟩
  · exact he
  · exfalso
    rw [List.any_eq_true] at hal
    obtain ⟨c, hc, hca⟩ := hal
    have hcm : c ∈ a := mem_of_cleanCore hc
    have hat : a.any Char.isAlpha = true := List.any_eq_true.mpr ⟨c, hcm, hca⟩
    exact Bool.false_ne_true (h.symm.trans hat)

/-- Witness for the amended C5. -/
theorem clean_letterless_witness :
    cleanAliasL "12*3".data (some "Bob".data) = [] :=
  clean_letterless_rejected _ _ (by decide)

/-! ### Claim C8 -/

/-- Claim C8 counterexample: cleaning is not idempotent — one stripping
pass can re-expose outer junk, so cleaning the cleaned result changes it. -/
theorem clean_idem_cx :
    cleanAliasL "[ [x".data (some "q".data) = "[x".data ∧
    cleanAliasL "[x".data (some "q".data) = "x".data ∧
    "[x".data ≠ "x".data := by decide

/-- Claim C8 amended: cleaning is idempotent on every candidate whose
cleaned result does not start with an opening bracket/parenthesis/quote and
does not end with a closing one. -/
theorem clean_idempotent (a : List Char) (name : Option (List Char))
    (h0 : cleanAliasL a name ≠ [])
    (h1 : headSatB isOpenJ (cleanAliasL a name) = false)
    (h2 : headSatB isCloseJ (cleanAliasL a name).reverse = false) :
    cleanAliasL (cleanAliasL a name) name = cleanAliasL a name := by
  rcases clean_cases a name with he | ⟨he, hne, hnn, hnm, hal⟩
  · exact absurd he h0
  rw [he] at h1 h2 ⊢
  have hstrip : stripL (cleanCore a) = cleanCore a := by
    unfold cleanCore
    exact stripL_idem _
  have hsub : subOuter (cleanCore a) = cleanCore a := subOuter_eq_self h1 h2
  have hcore : cleanCore (cleanCore a) = cleanCore a := by
    calc cleanCore (cleanCore a) = stripL (subOuter (stripL (cleanCore a))) := rfl
      _ = stripL (subOuter (cleanCore a)) := by rw [hstrip]
      _ = stripL (cleanCore a) := by rw [hsub]
      _ = cleanCore a := hstrip
  have hp := @clean_pass (cleanCore a) name
    (by rw [hcore]; exact hne) (by rw [hcore]; exact hnn) (by rw [hcore]; exact hnm)
    (by rw [hcore]; exact hal)
  rw [hp, hcore]

/-- Witness for the amended C8. -/
theorem clean_idempotent_witness :
    cleanAliasL (cleanAliasL "Mark Twain".data (some "Sam".data)) (some "Sam".data) =
      cleanAliasL "Mark Twain".data (some "Sam".data) :=
  clean_idempotent _ _ (by decide) (by decide) (by decide)

/-! ### Claim C7 -/

/-- Claim C7 counterexample: a whole-word `and` at the end of the field is
not treated as a separator, because the guard requires the spaced substring
`' and '`; splitting at word-boundary `and`s would instead give `["Bob"]`. -/
theorem split_and_guard_cx :
    splitAliasesL "Bob and".data = ["Bob and".data] ∧
    ((splitWordAnd "Bob and".data).map stripL).filter (fun q => !q.isEmpty) =
      ["Bob".data] ∧
    "Bob and".data ≠ "Bob".data := by decide

/-- Claim C7 amended: for a separator-free field, the word `and` acts as a
separator only when the piece contains the spaced substring `' and '`
(case-insensitively); in that case the piece is split at every whole-word
occurrence of `and`, the sub-pieces are trimmed and empty ones dropped. -/
theorem split_and_spaced (s : List Char)
    (h1 : s.any isSepC = false)
    (h2 : containsSub sAndPat (lowerL (stripL (subOuter (stripL s)))) = true) :
    splitAliasesL s =
      ((splitWordAnd (stripL (subOuter (stripL s)))).map stripL).filter
        (fun q => !q.isEmpty) := by
  have hs2chars : ∀ c ∈ subOuter (stripL s), isSepC c = false := by
    intro c hc
    have hca : c ∈ s := mem_of_stripL (mem_of_subOuter hc)
    by_contra hb
    have hct : isSepC c = true := by
      cases hx : isSepC c
      · exact absurd hx hb
      · rfl
    have hany := List.any_eq_true.mpr ⟨c, hca, hct⟩
    rw [h1] at hany
    exact Bool.false_ne_true hany
  have hp_ne : stripL (subOuter (stripL s)) ≠ [] := by
    intro hnil
    rw [hnil] at h2
    simp [containsSub, leadsWith, sAndPat, lowerL] at h2
  have hs2_ne : subOuter (stripL s) ≠ [] := by
    intro hnil
    apply hp_ne
    rw [hnil]
    rfl
  have hb : (subOuter (stripL s)).isEmpty = false := by
    cases hx : (subOuter (stripL s)).isEmpty
    · rfl
    · exact absurd (List.isEmpty_iff.mp hx) hs2_ne
  simp only [splitAliasesL]
  rw [splitSeps_no_sep hs2chars]
  simp only [List.filter_cons, List.filter_nil, hb, Bool.not_false, if_true,
    List.map_cons, List.map_nil]
  rw [expandAnd, if_pos h2]
  simp

/-- Witness for the amended C7. -/
theorem split_and_spaced_witness :
    splitAliasesL "A and B".data =
      ((splitWordAnd (stripL (subOuter (stripL "A and B".data)))).map stripL).filter
        (fun q => !q.isEmpty) :=
  split_and_spaced _ (by decide) (by decide)

/-! ### Claim C6 -/

/-- Claim C6 counterexample: the raw field `"none"` has no recognized
separator and contains letters, yet split-then-clean yields nothing rather
than the whole trimmed string, because clean rejects the literal `none`. -/
theorem fallback_none_cx :
    split_then_clean "none".data (some "X".data) = [] ∧
    ([] : List (List Char)) ≠ [stripL "none".data] := by decide

/-- Claim C6 amended: for a raw field with no separator characters, no
whole-word `and`, no bracket/parenthesis/quote characters and at least one
letter, whose trimmed form is not the literal `none`/`nan` and does not
case-insensitively equal the author's name, split followed by clean yields
exactly the whole trimmed raw string. -/
theorem split_clean_whole (raw : List Char) (name : Option (List Char))
    (h1 : raw.any isSepC = false)
    (h2 : raw.any (fun c => isOpenJ c || isCloseJ c) = false)
    (h3 : raw.any Char.isAlpha = true)
    (h4 : hasWordAnd (stripL raw) = false)
    (h5 : ¬(lowerL (stripL raw) = ['n', 'o', 'n', 'e'] ∨
            lowerL (stripL raw) = ['n', 'a', 'n']))
    (h6 : nameMatches (stripL raw) name = false) :
    split_then_clean raw name = [stripL raw] := by
  have hchars : ∀ c ∈ stripL raw, isOpenJ c = false ∧ isCloseJ c = false := by
    intro c hc
    have hca : c ∈ raw := mem_of_stripL hc
    constructor
    · by_contra hbo
      have hct : isOpenJ c = true := by
        cases hx : isOpenJ c
        · exact absurd hx hbo
        · rfl
      have hor : (isOpenJ c || isCloseJ c) = true := by rw [hct]; rfl
      have hany : (raw.any fun c => isOpenJ c || isCloseJ c) = true :=
        List.any_eq_true.mpr ⟨c, hca, hor⟩
      rw [h2] at hany
      exact Bool.false_ne_true hany
    · by_contra hbo
      have hct : isCloseJ c = true := by
        cases hx : isCloseJ c
        · exact absurd hx hbo
        · rfl
      have hor : (isOpenJ c || isCloseJ c) = true := by
        rw [hct]
        exact Bool.or_true _
      have hany : (raw.any fun c => isOpenJ c || isCloseJ c) = true :=
        List.any_eq_true.mpr ⟨c, hca, hor⟩
      rw [h2] at hany
      exact Bool.false_ne_true hany
  have hsub : subOuter (stripL raw) = stripL raw := subOuter_eq_self_of_chars hchars
  obtain ⟨c, hcmem, hcal⟩ := List.any_eq_true.mp h3
  have hcs : c ∈ stripL raw := mem_stripL_of (alpha_not_pySpace hcal) hcmem
  have hne : stripL raw ≠ [] := by
    intro hnil
    rw [hnil] at hcs
    exact absurd hcs (List.not_mem_nil c)
  have hb : (stripL raw).isEmpty = false := by
    cases hx : (stripL raw).isEmpty
    · rfl
    · exact absurd (List.isEmpty_iff.mp hx) hne
  have hstr : stripL (stripL raw) = stripL raw := stripL_idem raw
  have hguard : containsSub sAndPat (lowerL (stripL raw)) = false :=
    not_containsSub_of_not_hasWordAnd h4
  have hsep : ∀ d ∈ stripL raw, isSepC d = false := by
    intro d hd
    have hda : d ∈ raw := mem_of_stripL hd
    by_contra hbo
    have hct : isSepC d = true := by
      cases hx : isSepC d
      · exact absurd hx hbo
      · rfl
    have hany := List.any_eq_true.mpr ⟨d, hda, hct⟩
    rw [h1] at hany
    exact Bool.false_ne_true hany
  have hsplit : splitAliasesL raw = [stripL raw] := by
    simp only [splitAliasesL]
    rw [hsub, splitSeps_no_sep hsep]
    simp only [List.filter_cons, List.filter_nil, hb, Bool.not_false, if_true,
      List.map_cons, List.map_nil, hstr]
    rw [expandAnd, if_neg (by simp [hguard])]
    simp [hb]
  have hcore : cleanCore (stripL raw) = stripL raw := by
    calc cleanCore (stripL raw) = stripL (subOuter (stripL (stripL raw))) := rfl
      _ = stripL (subOuter (stripL raw)) := by rw [hstr]
      _ = stripL (stripL raw) := by rw [hsub]
      _ = stripL raw := hstr
  have hclean : cleanAliasL (stripL raw) name = stripL raw := by
    have hcp := @clean_pass (stripL raw) name
      (by rw [hcore]; exact hb) (by rw [hcore]; exact h5) (by rw [hcore]; exact h6)
      (by rw [hcore]; exact List.any_eq_true.mpr ⟨c, hcs, hcal⟩)
    rw [hcp, hcore]
  unfold split_then_clean
  rw [hsplit]
  simp only [List.map_cons, List.map_nil, hclean, List.filter_cons, List.filter_nil,
    hb, Bool.not_false, if_true]

/-- Witness for the amended C6. -/
theorem split_clean_whole_witness :
    split_then_clean "Mark Twain".data (some "Sam".data) = [stripL "Mark Twain".data] :=
  split_clean_whole _ _ (by decide) (by decide) (by decide) (by decide) (by decide)
    (by decide)

/-! ### Claim C1 -/

/-- Claim C1 counterexample: an author whose single work has no matching
language row gets translation count 1 (the distinct work count), not the
number of distinct observed language codes, which is 0. -/
theorem trans_count_work_fallback_cx :
    trans_count_of [⟨some 1, some 10⟩] [⟨some 2, some "en".data⟩] 10 = 1 ∧
    specLangCount [⟨some 1, some 10⟩] [⟨some 2, some "en".data⟩] 10 = 0 ∧
    (1 : Nat) ≠ 0 := by decide

/-- Claim C1 amended: when the languages table carries no blank language
cells and at least one language code is observed for the author, the
translation count equals the number of distinct language codes observed
across the author's works; with zero observed codes the code instead falls
back to the author's distinct work count. -/
theorem trans_count_eq_spec (metadata : List MetaRow) (languages : List LangRow) (aid : Int)
    (h0 : ∀ r ∈ languages, r.language.all (fun s => !(stripL s).isEmpty) = true)
    (h1 : 0 < specLangCount metadata languages aid) :
    trans_count_of metadata languages aid = specLangCount metadata languages aid := by
  have hlen : specLangs metadata languages aid ≠ [] := by
    intro hnil
    unfold specLangCount at h1
    rw [hnil] at h1
    simp at h1
  obtain ⟨s, hs⟩ := List.exists_mem_of_ne_nil _ hlen
  obtain ⟨p, hp, r, hr, hg, hl⟩ := mem_specLangs.mp hs
  have hall : ((tmpRows metadata).all fun q => decide (q.2 ≠ aid)) = false := by
    have hpm := mem_authorRows.mp hp
    by_contra hbo
    have hat : ((tmpRows metadata).all fun q => decide (q.2 ≠ aid)) = true := by
      cases hx : (tmpRows metadata).all fun q => decide (q.2 ≠ aid)
      · exact absurd hx hbo
      · rfl
    rw [List.all_eq_true] at hat
    have hd := hat p hpm.1
    rw [decide_eq_true_eq] at hd
    exact hd hpm.2
  have hiff : ∀ t, t ∈ authorLangs metadata languages aid ↔
      t ∈ specLangs metadata languages aid := by
    intro t
    rw [mem_authorLangs, mem_specLangs]
    constructor
    · rintro ⟨hexi, _⟩
      exact hexi
    · intro hexi
      refine ⟨hexi, ?_⟩
      obtain ⟨p2, hp2, r2, hr2, hg2, hl2⟩ := hexi
      have hall2 := h0 r2 hr2
      rw [hl2] at hall2
      simpa using hall2
  have hsa : s ∈ authorLangs metadata languages aid := (hiff s).mpr hs
  have hne : (authorLangs metadata languages aid).isEmpty = false := by
    cases hx : (authorLangs metadata languages aid).isEmpty
    · rfl
    · rw [List.isEmpty_iff] at hx
      rw [hx] at hsa
      exact absurd hsa (List.not_mem_nil s)
  have hcond1 : ¬(((tmpRows metadata).all fun q => decide (q.2 ≠ aid)) = true) := by
    rw [hall]
    exact Bool.false_ne_true
  have hcond2 : ¬((authorLangs metadata languages aid).isEmpty = true) := by
    rw [hne]
    exact Bool.false_ne_true
  unfold trans_count_of
  rw [if_neg hcond1, if_neg hcond2]
  have hn1 : (authorLangs metadata languages aid).Nodup := by
    unfold authorLangs
    exact List.nodup_dedup _
  have hn2 : (specLangs metadata languages aid).Nodup := by
    unfold specLangs
    exact List.nodup_dedup _
  exact length_eq_of_mem_iff hn1 hn2 hiff

/-- Witness for the amended C1. -/
theorem trans_count_eq_spec_witness :
    0 < specLangCount [⟨some 1, some 10⟩] [⟨some 1, some "en".data⟩] 10 ∧
    trans_count_of [⟨some 1, some 10⟩] [⟨some 1, some "en".data⟩] 10 =
      specLangCount [⟨some 1, some 10⟩] [⟨some 1, some "en".data⟩] 10 :=
  ⟨by decide, trans_count_eq_spec _ _ 10 (by decide) (by decide)⟩

end Gutenberg
